import Mathlib

/-!
Verification of the pipeline-orchestration and response-shaping core of a
voice-interaction backend (ASR -> LLM -> TTS with per-conversation memory).

The embedding mirrors:
* `backend/app/services/memory.py`   (`ConversationStore`)
* `backend/app/services/llm.py`      (`LLMService` response extraction)
* `backend/app/services/orchestrator.py` (`Orchestrator.talk`)

Python dictionaries are modelled as functions `String -> Option _` (insertion
order of the conversation map is never observed).  Python strings are Lean
`String`/`List Char`; `str.strip()` and the regex whitespace class are modelled
over the ASCII whitespace characters (the claims never involve the additional
Unicode whitespace code points).  Fallible code returns `Option`/`Except`.
-/

/-! ## Character and list utilities -/

/-- ASCII whitespace, as used by Python `str.strip()` and the regex class
backslash-s (restricted to ASCII; the inputs of interest are ASCII). -/
def pyIsSpace (c : Char) : Bool :=
  c = ' ' || c = '\t' || c = '\n' || c = '\r' || c = '\x0b' || c = '\x0c'

/-- Lowercase an ASCII letter, used to model the regex flag `(?i)`. -/
def asciiLower (c : Char) : Char :=
  if 'A' ≤ c && c ≤ 'Z' then Char.ofNat (c.toNat + 32) else c

/-- Case-insensitive character comparison (ASCII). -/
def ciEq (a b : Char) : Bool := asciiLower a == asciiLower b

/-- Does `cs` start with token `tok`, comparing case-insensitively? -/
def startsWithCI : List Char → List Char → Bool
  | [], _ => true
  | _ :: _, [] => false
  | t :: ts, c :: cs => ciEq t c && startsWithCI ts cs

/-- Does `tok` occur (case-insensitively) anywhere in `l`? -/
def containsTokCI (tok : List Char) : List Char → Bool
  | [] => startsWithCI tok []
  | c :: rest => startsWithCI tok (c :: rest) || containsTokCI tok rest

/-- Exact (case-sensitive) prefix test against a string pattern. -/
def startsWithStr (p : String) (cs : List Char) : Bool :=
  go p.data cs
where
  go : List Char → List Char → Bool
    | [], _ => true
    | _ :: _, [] => false
    | t :: ts, c :: cs => t = c && go ts cs

/-- Python `str.strip()` on a character list: drop whitespace on both ends. -/
def trimChars (l : List Char) : List Char :=
  ((l.dropWhile pyIsSpace).reverse.dropWhile pyIsSpace).reverse

/-- Python `str.strip()`. -/
def pyStrip (s : String) : String := String.mk (trimChars s.data)

/-- Last `n` elements of a list, i.e. the Python slice `l[-n:]` for `n > 0`. -/
def lastN (n : Nat) (l : List α) : List α := l.drop (l.length - n)

/-! ## ConversationStore (`memory.py`)

A message is the Python tuple `(role, content)` with `role` one of the string
literals `"user"` / `"assistant"`. -/

/-- `(role, content)` message tuple. -/
abbrev Message := String × String

/-- In-memory conversation storage with a per-conversation cap
(`ConversationStore.__init__`). -/
structure ConversationStore where
  maxTurns : Nat
  conversations : String → Option (List Message)

/-- `ConversationStore.ensure_conversation_id`: Python falsiness of the id
(`None` or the empty string) triggers generation of a fresh uuid, which is
passed here as the explicit argument `fresh` (`str(uuid.uuid4())`); then
`dict.setdefault(conversation_id, [])`. -/
def ensure_conversation_id (st : ConversationStore) (cid : Option String)
    (fresh : String) : String × ConversationStore :=
  let conversationId :=
    match cid with
    | none => fresh
    | some s => if s = "" then fresh else s
  match st.conversations conversationId with
  | some _ => (conversationId, st)
  | none =>
      (conversationId,
        { st with
          conversations := fun k =>
            if k = conversationId then some [] else st.conversations k })

/-- `ConversationStore.append_turn`: append the user and assistant messages,
then cap to the last `max_turns * 2` messages.  The Python cap is the slice
`history[-self._max_turns * 2:]`, which for `max_turns = 0` is `history[-0:]`,
i.e. the whole list — hence the inner `cap = 0` case. -/
def append_turn (st : ConversationStore) (id u a : String) : ConversationStore :=
  let history := (st.conversations id).getD []
  let h := history ++ [("user", u), ("assistant", a)]
  let cap := st.maxTurns * 2
  let h2 := if cap < h.length then (if cap = 0 then h else h.drop (h.length - cap)) else h
  { st with
    conversations := fun k => if k = id then some h2 else st.conversations k }

/-- `ConversationStore.get_history` in state-passing form:
`list(self._conversations.get(conversation_id, []))` returns a copy of the
stored list (or `[]`) and does not touch the mapping. -/
def get_history_s (st : ConversationStore) (id : String) :
    List Message × ConversationStore :=
  ((st.conversations id).getD [], st)

/-- The value returned by `get_history`. -/
def get_history (st : ConversationStore) (id : String) : List Message :=
  (get_history_s st id).1

/-- `ConversationStore.reset`: `self._conversations.pop(conversation_id, None)`. -/
def reset_conversation (st : ConversationStore) (id : String) : ConversationStore :=
  { st with
    conversations := fun k => if k = id then none else st.conversations k }

/-- The store of a freshly constructed `ConversationStore(max_turns)`. -/
def emptyStore (maxTurns : Nat) : ConversationStore :=
  ⟨maxTurns, fun _ => none⟩

/-! ## JSON values and `json.loads` (used by `LLMService._parse_json_candidate`)

`json.loads` is modelled by a fuel-indexed recursive-descent parser following
the CPython `json` module: JSON whitespace is ` \t\n\r`; literals `null`,
`true`, `false` and the CPython extensions `NaN`, `Infinity`, `-Infinity`;
numbers follow the CPython regex `-?(0|[1-9]\d*)(\.\d+)?([eE][-+]?\d+)?` and
are kept as their lexeme (the extraction logic only ever asks whether a value
is a string); strings support the standard escapes incl. `\uXXXX` with
surrogate-pair combination (a lone surrogate, which CPython keeps, is not
representable as a `Char` and maps to U+FFFD; no claim involves one); objects
are Python dicts: duplicate keys keep the first position and the last value. -/

inductive Json where
  | null
  | bool (b : Bool)
  | num (lexeme : String)
  | str (s : String)
  | arr (items : List Json)
  | obj (fields : List (String × Json))

/-- The character `{` (written via its code point to keep it out of source
literals). -/
def lbrace : Char := Char.ofNat 123

/-- The character `}`. -/
def rbrace : Char := Char.ofNat 125

/-- JSON whitespace (`json.decoder.WHITESPACE`). -/
def jsonWsChar (c : Char) : Bool := c = ' ' || c = '\t' || c = '\n' || c = '\r'

/-- Skip JSON whitespace. -/
def skipWs (cs : List Char) : List Char := cs.dropWhile jsonWsChar

/-- Python dict `d[key]` lookup on an insertion-ordered field list. -/
def lookupKV : List (String × Json) → String → Option Json
  | [], _ => none
  | (k, v) :: rest, key => if k = key then some v else lookupKV rest key

/-- Python dict `d[key] = v`: replace in place on duplicate, else append. -/
def insertKV : List (String × Json) → String → Json → List (String × Json)
  | [], k, v => [(k, v)]
  | (k1, v1) :: rest, k, v =>
      if k1 = k then (k, v) :: rest else (k1, v1) :: insertKV rest k v

/-- Hexadecimal digit value. -/
def hexDigitVal (c : Char) : Option Nat :=
  if '0' ≤ c && c ≤ '9' then some (c.toNat - 48)
  else if 'a' ≤ c && c ≤ 'f' then some (c.toNat - 87)
  else if 'A' ≤ c && c ≤ 'F' then some (c.toNat - 55)
  else none

/-- Parse exactly four hex digits (`\uXXXX`). -/
def parse_hex4 : List Char → Option (Nat × List Char)
  | c1 :: c2 :: c3 :: c4 :: rest =>
    match hexDigitVal c1, hexDigitVal c2, hexDigitVal c3, hexDigitVal c4 with
    | some a, some b, some c, some d => some (((a * 16 + b) * 16 + c) * 16 + d, rest)
    | _, _, _, _ => none
  | _ => none

/-- Code point to `Char`; unrepresentable lone surrogates become U+FFFD. -/
def char_of_codepoint (n : Nat) : Char :=
  if n < 0xd800 || (0xdfff < n && n < 0x110000) then Char.ofNat n else Char.ofNat 0xfffd

/-- Prepend a character to the content of a successful string scan. -/
def consHead (c : Char) : Option (List Char × List Char) → Option (List Char × List Char)
  | some (l, r) => some (c :: l, r)
  | none => none

/-- `json.decoder.py_scanstring` after the opening quote: returns the decoded
content and the remainder after the closing quote.  Unescaped control
characters are rejected (strict mode), unknown escapes are rejected. -/
def scan_string_f : Nat → List Char → Option (List Char × List Char)
  | 0, _ => none
  | _ + 1, [] => none
  | fuel + 1, c :: rest =>
    if c = '"' then some ([], rest)
    else if c = '\\' then
      match rest with
      | [] => none
      | e :: rest2 =>
        if e = '"' then consHead '"' (scan_string_f fuel rest2)
        else if e = '\\' then consHead '\\' (scan_string_f fuel rest2)
        else if e = '/' then consHead '/' (scan_string_f fuel rest2)
        else if e = 'b' then consHead '\x08' (scan_string_f fuel rest2)
        else if e = 'f' then consHead '\x0c' (scan_string_f fuel rest2)
        else if e = 'n' then consHead '\n' (scan_string_f fuel rest2)
        else if e = 'r' then consHead '\r' (scan_string_f fuel rest2)
        else if e = 't' then consHead '\t' (scan_string_f fuel rest2)
        else if e = 'u' then
          match parse_hex4 rest2 with
          | none => none
          | some (n, rest3) =>
            if 0xd800 ≤ n && n ≤ 0xdbff then
              match rest3 with
              | '\\' :: 'u' :: rest4 =>
                match parse_hex4 rest4 with
                | some (m, rest5) =>
                  if 0xdc00 ≤ m && m ≤ 0xdfff then
                    consHead (char_of_codepoint (0x10000 + (n - 0xd800) * 0x400 + (m - 0xdc00)))
                      (scan_string_f fuel rest5)
                  else consHead (char_of_codepoint n) (scan_string_f fuel rest3)
                | none => consHead (char_of_codepoint n) (scan_string_f fuel rest3)
              | _ => consHead (char_of_codepoint n) (scan_string_f fuel rest3)
            else consHead (char_of_codepoint n) (scan_string_f fuel rest3)
        else none
    else if c.toNat < 0x20 then none
    else consHead c (scan_string_f fuel rest)

/-- Optional fraction part `(\.\d+)?`: lexeme chars and remainder. -/
def num_frac (cs : List Char) : List Char × List Char :=
  match cs with
  | '.' :: rest =>
    let ds := rest.takeWhile Char.isDigit
    if ds.isEmpty then ([], cs) else ('.' :: ds, rest.dropWhile Char.isDigit)
  | _ => ([], cs)

/-- Optional exponent part `([eE][-+]?\d+)?`. -/
def num_exp (cs : List Char) : List Char × List Char :=
  match cs with
  | e :: rest =>
    if e = 'e' || e = 'E' then
      let sr : List Char × List Char :=
        match rest with
        | '+' :: r => (['+'], r)
        | '-' :: r => (['-'], r)
        | _ => ([], rest)
      let ds := sr.2.takeWhile Char.isDigit
      if ds.isEmpty then ([], cs) else (e :: (sr.1 ++ ds), sr.2.dropWhile Char.isDigit)
    else ([], cs)
  | [] => ([], cs)

/-- CPython `NUMBER_RE`: returns the matched lexeme and the remainder. -/
def parse_number (cs : List Char) : Option (List Char × List Char) :=
  let sc : List Char × List Char :=
    match cs with
    | '-' :: rest => (['-'], rest)
    | _ => ([], cs)
  match sc.2 with
  | '0' :: rest =>
    let fr := num_frac rest
    let ex := num_exp fr.2
    some (sc.1 ++ '0' :: (fr.1 ++ ex.1), ex.2)
  | c :: rest =>
    if c.isDigit then
      let ds := rest.takeWhile Char.isDigit
      let rest2 := rest.dropWhile Char.isDigit
      let fr := num_frac rest2
      let ex := num_exp fr.2
      some (sc.1 ++ c :: (ds ++ fr.1 ++ ex.1), ex.2)
    else none
  | [] => none

/-- Task of the recursive-descent scanner: a value, the members of an object
(cursor at an opening key quote), or the elements of an array (cursor at a
value start).  A single fuel-indexed function keeps the recursion structural. -/
inductive PTask where
  | val (cs : List Char)
  | members (acc : List (String × Json)) (cs : List Char)
  | elements (acc : List Json) (cs : List Char)

/-- The scanner (`json.scanner.py_make_scanner` plus `JSONObject`/`JSONArray`).
Returns the parsed value and the remainder. -/
def parse_f : Nat → PTask → Option (Json × List Char)
  | 0, _ => none
  | fuel + 1, PTask.val cs =>
    match cs with
    | [] => none
    | c :: rest =>
      if c = '"' then
        match scan_string_f (rest.length + 1) rest with
        | some (content, rest2) => some (Json.str (String.mk content), rest2)
        | none => none
      else if c = lbrace then
        match skipWs rest with
        | [] => none
        | d :: rest2 =>
          if d = rbrace then some (Json.obj [], rest2)
          else parse_f fuel (PTask.members [] (d :: rest2))
      else if c = '[' then
        match skipWs rest with
        | [] => none
        | d :: rest2 =>
          if d = ']' then some (Json.arr [], rest2)
          else parse_f fuel (PTask.elements [] (d :: rest2))
      else if startsWithStr "null" cs then some (Json.null, cs.drop 4)
      else if startsWithStr "true" cs then some (Json.bool true, cs.drop 4)
      else if startsWithStr "false" cs then some (Json.bool false, cs.drop 5)
      else
        match parse_number cs with
        | some (lex, rest2) => some (Json.num (String.mk lex), rest2)
        | none =>
          if startsWithStr "NaN" cs then some (Json.num "NaN", cs.drop 3)
          else if startsWithStr "Infinity" cs then some (Json.num "Infinity", cs.drop 8)
          else if startsWithStr "-Infinity" cs then some (Json.num "-Infinity", cs.drop 9)
          else none
  | fuel + 1, PTask.members acc cs =>
    match cs with
    | [] => none
    | c :: rest =>
      if c = '"' then
        match scan_string_f (rest.length + 1) rest with
        | some (key, rest2) =>
          (match skipWs rest2 with
           | ':' :: rest3 =>
             (match parse_f fuel (PTask.val (skipWs rest3)) with
              | some (v, rest4) =>
                let acc2 := insertKV acc (String.mk key) v
                (match skipWs rest4 with
                 | [] => none
                 | d :: rest5 =>
                   if d = ',' then
                     (match skipWs rest5 with
                      | e :: rest6 =>
                        if e = '"' then parse_f fuel (PTask.members acc2 (e :: rest6))
                        else none
                      | [] => none)
                   else if d = rbrace then some (Json.obj acc2, rest5)
                   else none)
              | none => none)
           | _ => none)
        | none => none
      else none
  | fuel + 1, PTask.elements acc cs =>
    match parse_f fuel (PTask.val cs) with
    | some (v, rest) =>
      (match skipWs rest with
       | [] => none
       | d :: rest2 =>
         if d = ']' then some (Json.arr (v :: acc).reverse, rest2)
         else if d = ',' then parse_f fuel (PTask.elements (v :: acc) (skipWs rest2))
         else none)
    | none => none

/-- `json.loads`: leading/trailing whitespace allowed, anything else after the
value is an error (which `_parse_json_candidate` catches, hence `Option`). -/
def loads (s : String) : Option Json :=
  match parse_f (4 * (s.data.length + 2)) (PTask.val (skipWs s.data)) with
  | some (v, rest) => if (skipWs rest).isEmpty then some v else none
  | none => none

/-! ## `LLMService._parse_json_candidate` -/

/-- The inner check of the candidate loops: a value qualifies when it is a
string that is non-empty after `strip()`; the stripped string is returned. -/
def val_yields : Json → Option String
  | Json.str s => if pyStrip s = "" then none else some (pyStrip s)
  | _ => none

/-- One step of the preferred-key loop: `val = obj.get(key)` then the string
check. -/
def key_yields (kvs : List (String × Json)) (k : String) : Option String :=
  match lookupKV kvs k with
  | some v => val_yields v
  | none => none

/-- First success of `f` along a list (the Python `for ... return` loops). -/
def first_some (f : α → Option β) : List α → Option β
  | [] => none
  | a :: rest =>
    match f a with
    | some b => some b
    | none => first_some f rest

/-- The fixed preferred-key order of `_parse_json_candidate`. -/
def preferred_keys : List String := ["final", "answer", "output", "response", "result"]

/-- `LLMService._parse_json_candidate`. -/
def parse_json_candidate (text : String) : Option String :=
  match loads text with
  | none => none
  | some (Json.obj kvs) =>
    (match first_some (fun k => key_yields kvs k) preferred_keys with
     | some v => some v
     | none => first_some (fun kv => val_yields kv.2) kvs)
  | some (Json.arr items) =>
    first_some
      (fun item =>
        match val_yields item with
        | some v => some v
        | none =>
          match item with
          | Json.obj kvs => first_some (fun k => key_yields kvs k) preferred_keys
          | _ => none)
      items
  | some _ => none

/-! ## `LLMService._strip_think_text` -/

/-- The token `<think>`. -/
def tagOpenTok : List Char := ['<', 't', 'h', 'i', 'n', 'k', '>']

/-- The token `</think>`. -/
def tagCloseTok : List Char := ['<', '/', 't', 'h', 'i', 'n', 'k', '>']

/-- Find the earliest case-insensitive `</think>` and return the remainder
after it (the non-greedy `.*?</think>` of the block regex). -/
def find_close : List Char → Option (List Char)
  | [] => none
  | c :: rest =>
    if startsWithCI tagCloseTok (c :: rest) then some ((c :: rest).drop 8)
    else find_close rest

/-- `re.sub(r"(?is)<think>.*?</think>", "", text)`: left-to-right scan; at an
opening tag with a later closing tag, drop through the closing tag and
continue after it; otherwise emit the character. -/
def strip_blocks_f : Nat → List Char → List Char
  | 0, cs => cs
  | _ + 1, [] => []
  | fuel + 1, c :: rest =>
    if startsWithCI tagOpenTok (c :: rest) then
      match find_close ((c :: rest).drop 7) with
      | some rest2 => strip_blocks_f fuel rest2
      | none => c :: strip_blocks_f fuel rest
    else c :: strip_blocks_f fuel rest

/-- `re.sub(r"(?is)</?think>", "", cleaned)`: remove residual tags in one
left-to-right pass (replacements are not rescanned). -/
def strip_tags_f : Nat → List Char → List Char
  | 0, cs => cs
  | _ + 1, [] => []
  | fuel + 1, c :: rest =>
    if startsWithCI tagOpenTok (c :: rest) then strip_tags_f fuel ((c :: rest).drop 7)
    else if startsWithCI tagCloseTok (c :: rest) then strip_tags_f fuel ((c :: rest).drop 8)
    else c :: strip_tags_f fuel rest

/-- `LLMService._strip_think_text`. -/
def strip_think_text (text : String) : String :=
  let cs := text.data
  let b := strip_blocks_f (cs.length + 1) cs
  let g := strip_tags_f (b.length + 1) b
  String.mk (trimChars g)

/-! ## `LLMService._extract_final` and `_looks_meta` -/

/-- The letters of the `FINAL` label. -/
def finalTok : List Char := ['F', 'I', 'N', 'A', 'L']

/-- Attempt the pattern `\s*FINAL\s*:\s*(.*)$` at one position (the leading
`^` is handled by the caller).  Each greedy `\s*` takes its maximal whitespace
run — no shorter run can be followed by the required non-whitespace character —
and `.` stops at a newline.  Returns the raw capture group. -/
def try_final_core (s1 : List Char) : Option (List Char) :=
  if startsWithCI finalTok s1 then
    match (s1.drop 5).dropWhile pyIsSpace with
    | c :: s3 =>
      if c = ':' then some ((s3.dropWhile pyIsSpace).takeWhile (fun d => !(d == '\n')))
      else none
    | [] => none
  else none

/-- The whole pattern at one position: leading `\s*` then the core. -/
def try_final_at (cs : List Char) : Option (List Char) :=
  try_final_core (cs.dropWhile pyIsSpace)

/-- `re.search(r"(?im)^\s*FINAL\s*:\s*(.*)$", text)`: try the pattern at every
line start, leftmost first. -/
def find_final_aux : List Char → Bool → Option (List Char)
  | [], _ => none
  | c :: rest, atLineStart =>
    if atLineStart then
      match try_final_at (c :: rest) with
      | some g => some g
      | none => find_final_aux rest (c == '\n')
    else find_final_aux rest (c == '\n')

/-- The regex search over the whole text (position 0 is a line start). -/
def find_final (cs : List Char) : Option (List Char) := find_final_aux cs true

/-- Word characters for the regex `\b` boundaries (ASCII). -/
def isWordChar (c : Char) : Bool :=
  ('a' ≤ c && c ≤ 'z') || ('A' ≤ c && c ≤ 'Z') || ('0' ≤ c && c ≤ '9') || c = '_'

/-- The meta/planning vocabulary of `_looks_meta` (the apostrophe of the
seventh word is written as an escape). -/
def meta_words : List (List Char) :=
  ["structure".data, "explain".data, "mention".data, "avoid".data, "guideline".data,
   "steps".data, "plan".data, "let\x27s".data, "we should".data, "potential gaps".data,
   "as per instructions".data, "analysis".data, "think".data]

/-- Does some vocabulary word match here, with a word boundary after it? -/
def word_match_here (cs : List Char) (w : List Char) : Bool :=
  startsWithCI w cs &&
    (match cs.drop w.length with
     | [] => true
     | c :: _ => !isWordChar c)

/-- Scan for `\b(word)\b`, tracking whether the previous character was a word
character (boundary before). -/
def looks_meta_aux : Bool → List Char → Bool
  | _, [] => false
  | prevWord, c :: rest =>
    ((!prevWord) && meta_words.any (word_match_here (c :: rest)))
    || looks_meta_aux (isWordChar c) rest

/-- `LLMService._looks_meta`. -/
def looks_meta (l : List Char) : Bool := looks_meta_aux false l

/-- Index of the last newline inside a list, if any. -/
def last_nl_idx (l : List Char) : Option Nat :=
  match l.reverse.findIdx? (fun c => c == '\n') with
  | some k => some (l.length - 1 - k)
  | none => none

/-- Try the paragraph separator `\n\s*\n` at one position.  After the initial
newline the greedy `\s*` backtracks to the last newline inside its maximal
whitespace run.  Returns the remainder after the separator. -/
def sep_match : List Char → Option (List Char)
  | '\n' :: rest =>
    (match last_nl_idx (rest.takeWhile pyIsSpace) with
     | some j => some (rest.drop (j + 1))
     | none => none)
  | _ => none

/-- `re.split(r"\n\s*\n", text)`: left-to-right, non-overlapping.  The
accumulator holds the current part reversed. -/
def split_paras_f : Nat → List Char → List Char → List (List Char)
  | 0, cs, cur => [cur.reverse ++ cs]
  | _ + 1, [], cur => [cur.reverse]
  | fuel + 1, c :: rest, cur =>
    match sep_match (c :: rest) with
    | some rest2 => cur.reverse :: split_paras_f fuel rest2 []
    | none => split_paras_f fuel rest (c :: cur)

/-- Paragraph split of the whole text. -/
def split_paras (cs : List Char) : List (List Char) :=
  split_paras_f (cs.length + 1) cs []

/-- Line boundary characters of Python `str.splitlines()`. -/
def isLineBound (c : Char) : Bool :=
  c = '\n' || c = '\r' || c = '\x0b' || c = '\x0c' || c = '\x1c' || c = '\x1d' ||
  c = '\x1e' || c = '\x85' || c = ' ' || c = ' '

/-- Python `str.splitlines()` (no trailing empty line for a final newline;
`\r\n` counts as one boundary). -/
def splitlines_f : Nat → List Char → List (List Char)
  | 0, cs => [cs]
  | _ + 1, [] => []
  | fuel + 1, c :: cs =>
    let line := (c :: cs).takeWhile (fun d => !isLineBound d)
    match (c :: cs).dropWhile (fun d => !isLineBound d) with
    | [] => [line]
    | '\r' :: '\n' :: rest2 => line :: splitlines_f fuel rest2
    | _ :: rest2 => line :: splitlines_f fuel rest2

/-- `str.splitlines()` of the whole text. -/
def splitlines (cs : List Char) : List (List Char) :=
  splitlines_f (cs.length + 1) cs

/-- `LLMService._extract_final`. -/
def extract_final (text : String) : String :=
  let cs := text.data
  if cs.isEmpty then ""
  else
    match find_final cs with
    | some g => String.mk (trimChars g)
    | none =>
      let parts := ((split_paras cs).map trimChars).filter (fun p => !p.isEmpty)
      if 2 ≤ parts.length then
        match parts.reverse.find? (fun p => !looks_meta p) with
        | some para => String.mk (trimChars para)
        | none => String.mk (trimChars (parts.getLastD []))
      else
        let lns := ((splitlines cs).map trimChars).filter (fun l => !l.isEmpty)
        match (lns.filter (fun l => !looks_meta l)).getLast? with
        | some l => String.mk l
        | none => String.mk (trimChars cs)

/-! ## The extraction pipeline of `LLMService.generate_chat` (lines 92–97) -/

/-- The non-JSON path: `cleaned = _strip_think_text(raw)`,
`final = _extract_final(cleaned)`, `return final or cleaned or raw_text`. -/
def extract_fallback (raw_text : String) : String :=
  let cleaned := strip_think_text raw_text
  let f := extract_final cleaned
  if f = "" then (if cleaned = "" then raw_text else cleaned) else f

/-- The full extraction pipeline applied to `raw_text`:
`parsed = _parse_json_candidate(raw_text); if parsed: return parsed`, else the
fallback chain.  (`if parsed` is Python truthiness, hence the emptiness test.) -/
def generate_chat_extract (raw_text : String) : String :=
  match parse_json_candidate raw_text with
  | some parsed => if parsed = "" then extract_fallback raw_text else parsed
  | none => extract_fallback raw_text

/-! ## Orchestrator (`orchestrator.py`)

The three external stages are black boxes (spec §1): the recognizer outcome,
the generator server outcome (as a function of the posted messages) and the
synthesis outcome (as a function of the reply text) are oracle parameters of
`talk`; each may fail (timeout or internal failure) as an `Except.error`.
`str(uuid.uuid4())` is the oracle parameter `fresh`.  A trace records which
stages were invoked, mirroring the straight-line control flow. -/

/-- The `builtin_guard` system prompt of `LLMService.generate_chat` (the
apostrophes and braces are written as escapes). -/
def builtin_guard : String :=
  "You are a concise assistant. Provide only the final answer. Do not include chain-of-thought or analysis. Respond ONLY as a compact JSON object with a single key \x27final\x27, e.g. \x7b\"final\":\"...\"\x7d. Return JSON only."

/-- `merged_system = f"{builtin_guard} " + (system_prompt or "")`, stripped
when placed into the system message. -/
def merged_system (system_prompt : Option String) : String :=
  pyStrip (builtin_guard ++ " " ++ system_prompt.getD "")

/-- The message list posted to the chat endpoint: system message, history,
then the new user message. -/
def mk_messages (system_prompt : Option String) (history : List Message)
    (user_message : String) : List Message :=
  ("system", merged_system system_prompt) :: (history ++ [("user", user_message)])

/-- What `generate_chat` returns for a successful HTTP response whose message
content is `content`: `raw_text = (content or "").strip()` followed by the
extraction pipeline. -/
def generate_chat_result (content : String) : String :=
  generate_chat_extract (pyStrip content)

/-- `TalkResult` dataclass (audio bytes as a sequence of byte values). -/
structure TalkResult where
  transcript : String
  replyText : String
  audioWavBytes : List Nat
  conversationId : String

/-- The three pipeline stages. -/
inductive Stage where
  | asr
  | llm
  | tts
deriving DecidableEq

/-- Outcome of one `talk` request: its result (or error), the store it leaves
behind, and the stages that were invoked, in order. -/
structure TalkOutcome (E : Type) where
  result : Except E TalkResult
  store : ConversationStore
  trace : List Stage

/-- `Orchestrator.talk`: recognize, resolve the conversation id, fetch
history, generate + extract, append the turn, then synthesize.  A failing
stage aborts the request, leaving the store as accumulated so far. -/
def talk {E : Type} (st : ConversationStore) (conversation_id : Option String)
    (fresh : String) (system_prompt : Option String)
    (asrRes : Except E String)
    (llmOracle : List Message → Except E String)
    (ttsOracle : String → Except E (List Nat)) : TalkOutcome E :=
  match asrRes with
  | Except.error e => ⟨Except.error e, st, [Stage.asr]⟩
  | Except.ok transcript =>
    let p := ensure_conversation_id st conversation_id fresh
    let convId := p.1
    let st1 := p.2
    let historyPairs := get_history st1 convId
    match llmOracle (mk_messages system_prompt historyPairs transcript) with
    | Except.error e => ⟨Except.error e, st1, [Stage.asr, Stage.llm]⟩
    | Except.ok content =>
      let replyText := generate_chat_result content
      let st2 := append_turn st1 convId transcript replyText
      match ttsOracle replyText with
      | Except.error e => ⟨Except.error e, st2, [Stage.asr, Stage.llm, Stage.tts]⟩
      | Except.ok audio =>
        ⟨Except.ok ⟨transcript, replyText, audio, convId⟩, st2,
          [Stage.asr, Stage.llm, Stage.tts]⟩

/-- `Orchestrator.reset_conversation` delegates to the store. -/
def orchestrator_reset (st : ConversationStore) (conversation_id : String) :
    ConversationStore :=
  reset_conversation st conversation_id

/-- Does `sub` occur as a contiguous (case-sensitive) substring of `s`? -/
def contains_substring (s sub : String) : Bool :=
  go s.data
where
  go : List Char → Bool
    | [] => startsWithStr sub []
    | c :: rest => startsWithStr sub (c :: rest) || go rest

/-! ## C5: line-level characterization of the FINAL heuristic -/

/-- Join lines with newline separators (inverse of splitting on newlines). -/
def joinLines : List (List Char) → List Char
  | [] => []
  | [l] => l
  | l :: ls => l ++ '\n' :: joinLines ls

/-- Does a single line match `\s*FINAL\s*:` (case-insensitive), and if so what
is the raw remainder of the line after the colon? -/
def line_final_rem (l : List Char) : Option (List Char) :=
  let s1 := l.dropWhile pyIsSpace
  if startsWithCI finalTok s1 then
    match (s1.drop 5).dropWhile pyIsSpace with
    | c :: s3 => if c = ':' then some s3 else none
    | [] => none
  else none

/-! ## C1: the region content does not influence the non-JSON extraction path -/

/-- No occurrence of `tok` (case-insensitive) starts at any of the first `n`
positions of the list. -/
def noTokBeforeB (tok : List Char) : List Char → Nat → Bool
  | _, 0 => true
  | [], _ + 1 => true
  | ln, n + 1 =>
    match ln with
    | c :: rest => !startsWithCI tok (c :: rest) && noTokBeforeB tok rest n
    | [] => true

/-- The residual-tag stripping and trimming applied to a text (step two of
`_strip_think_text` after the block removal). -/
def strip_tags_trim (x : String) : String :=
  String.mk (trimChars (strip_tags_f (x.data.length + 1) x.data))

/-- The extraction result computed from the text outside the thinking region
only: residual-tag strip + trim, then the final-answer heuristics, then
`final or cleaned` (the raw fallback is excluded by the non-blank
hypothesis). -/
def post_blocks_extract (x : String) : String :=
  let f := extract_final (strip_tags_trim x)
  if f = "" then strip_tags_trim x else f

/-! ## Theorems -/

/-! ### Memory theorems -/

/-- C2: after an `append_turn`, the stored list for the id is exactly the
`2 * max_turns` most recent messages of (old history ++ the new user/assistant
pair), and its length never exceeds `2 * max_turns` (for `max_turns ≥ 1`). -/
theorem c2_append_turn_cap (st : ConversationStore) (id u a : String)
    (hmt : 1 ≤ st.maxTurns) :
    get_history (append_turn st id u a) id
      = lastN (2 * st.maxTurns) (get_history st id ++ [("user", u), ("assistant", a)])
    ∧ (get_history (append_turn st id u a) id).length ≤ 2 * st.maxTurns := by
  have hcap : st.maxTurns * 2 ≠ 0 := by omega
  have key : get_history (append_turn st id u a) id
      = (if st.maxTurns * 2 < (get_history st id ++ [("user", u), ("assistant", a)]).length
         then (get_history st id ++ [("user", u), ("assistant", a)]).drop
              ((get_history st id ++ [("user", u), ("assistant", a)]).length - st.maxTurns * 2)
         else get_history st id ++ [("user", u), ("assistant", a)]) := by
    simp [get_history, get_history_s, append_turn, hcap]
  rw [key]
  constructor
  · unfold lastN
    split
    · congr 1
      omega
    · next h =>
      have h0 : ((get_history st id ++ [("user", u), ("assistant", a)]).length
          - 2 * st.maxTurns) = 0 := by omega
      rw [h0, List.drop_zero]
  · split
    · next h =>
      rw [List.length_drop]
      omega
    · next h =>
      omega

/-- C2 witness: with `max_turns = 1`, appending a second turn-pair keeps only
the most recent pair. -/
theorem c2_append_turn_cap_witness :
    get_history (append_turn (append_turn (emptyStore 1) "c" "u1" "a1") "c" "u2" "a2") "c"
      = lastN (2 * 1) (get_history (append_turn (emptyStore 1) "c" "u1" "a1") "c"
          ++ [("user", "u2"), ("assistant", "a2")])
    ∧ (get_history (append_turn (append_turn (emptyStore 1) "c" "u1" "a1") "c" "u2" "a2") "c").length
        ≤ 2 * 1 :=
  c2_append_turn_cap (append_turn (emptyStore 1) "c" "u1" "a1") "c" "u2" "a2" (by decide)

/-- C6: `reset` followed by `get_history` yields the empty sequence, for any
prior store state; and `reset` on an unknown id leaves the store unchanged. -/
theorem c6_reset_clears_history (st : ConversationStore) (id : String) :
    get_history (reset_conversation st id) id = []
    ∧ (st.conversations id = none → reset_conversation st id = st) := by
  constructor
  · simp [get_history, get_history_s, reset_conversation]
  · intro h
    unfold reset_conversation
    have : (fun k => if k = id then none else st.conversations k) = st.conversations := by
      funext k
      by_cases hk : k = id
      · simp [hk, h]
      · simp [hk]
    simp [this]

/-- C6 witness: resetting a never-seen id on the empty store is a no-op and the
subsequent history is empty. -/
theorem c6_reset_clears_history_witness :
    get_history (reset_conversation (emptyStore 20) "x") "x" = []
    ∧ reset_conversation (emptyStore 20) "x" = emptyStore 20 :=
  ⟨(c6_reset_clears_history (emptyStore 20) "x").1,
   (c6_reset_clears_history (emptyStore 20) "x").2 rfl⟩

/-- C9: `get_history` returns a snapshot equal to the stored turn sequence for
the id (empty if unknown) and leaves the store — in particular the set of known
ids — exactly unchanged, so an unknown id is not registered by the call.  (The
source returns `list(...)`, a fresh copy, so caller-side mutation of the
returned sequence cannot reach the store; in this pure embedding that is
reflected by the store output being the unmodified input store.) -/
theorem c9_get_history_snapshot (st : ConversationStore) (id : String) :
    (get_history_s st id).1 = (st.conversations id).getD []
    ∧ (get_history_s st id).2 = st :=
  ⟨rfl, rfl⟩

/-- C10: `ensure_conversation_id` treats `None` and `""` alike, returning the
fresh uuid (always non-empty, and registered in the store afterwards); a known
non-empty id is returned unchanged with the whole store untouched. -/
theorem c10_ensure_conversation_id (st : ConversationStore)
    (fresh id : String) (msgs : List Message)
    (hf : fresh ≠ "") (hid : st.conversations id = some msgs) (hne : id ≠ "") :
    (ensure_conversation_id st none fresh).1 = fresh
    ∧ (ensure_conversation_id st (some "") fresh).1 = fresh
    ∧ (ensure_conversation_id st none fresh).1 ≠ ""
    ∧ ((ensure_conversation_id st none fresh).2.conversations fresh).isSome
    ∧ ((ensure_conversation_id st (some "") fresh).2.conversations fresh).isSome
    ∧ ensure_conversation_id st (some id) fresh = (id, st) := by
  refine ⟨?_, ?_, ?_, ?_, ?_, ?_⟩
  · unfold ensure_conversation_id
    cases h : st.conversations fresh <;> simp [h]
  · unfold ensure_conversation_id
    cases h : st.conversations fresh <;> simp [h]
  · unfold ensure_conversation_id
    cases h : st.conversations fresh <;> simp [h, hf]
  · unfold ensure_conversation_id
    cases h : st.conversations fresh <;> simp [h]
  · unfold ensure_conversation_id
    cases h : st.conversations fresh <;> simp [h]
  · unfold ensure_conversation_id
    simp [hne, hid]

/-- C10 witness: on a store that knows `"abc"`, a missing or empty id yields the
fresh uuid and registers it, while `"abc"` is returned with the store intact. -/
theorem c10_ensure_conversation_id_witness :
    (ensure_conversation_id (append_turn (emptyStore 20) "abc" "u" "a") none "f").1 = "f"
    ∧ (ensure_conversation_id (append_turn (emptyStore 20) "abc" "u" "a") (some "") "f").1 = "f"
    ∧ (ensure_conversation_id (append_turn (emptyStore 20) "abc" "u" "a") none "f").1 ≠ ""
    ∧ ((ensure_conversation_id (append_turn (emptyStore 20) "abc" "u" "a") none "f").2.conversations "f").isSome
    ∧ ((ensure_conversation_id (append_turn (emptyStore 20) "abc" "u" "a") (some "") "f").2.conversations "f").isSome
    ∧ ensure_conversation_id (append_turn (emptyStore 20) "abc" "u" "a") (some "abc") "f"
        = ("abc", append_turn (emptyStore 20) "abc" "u" "a") :=
  c10_ensure_conversation_id (append_turn (emptyStore 20) "abc" "u" "a") "f" "abc"
    [("user", "u"), ("assistant", "a")] (by decide) rfl (by decide)

/-- Helper: the stored list after `append_turn`, fully explicit. -/
theorem get_history_append_turn (st : ConversationStore) (id u a : String) :
    get_history (append_turn st id u a) id
      = (if st.maxTurns * 2 < (get_history st id ++ [("user", u), ("assistant", a)]).length
         then (if st.maxTurns * 2 = 0
               then get_history st id ++ [("user", u), ("assistant", a)]
               else (get_history st id ++ [("user", u), ("assistant", a)]).drop
                 ((get_history st id ++ [("user", u), ("assistant", a)]).length - st.maxTurns * 2))
         else get_history st id ++ [("user", u), ("assistant", a)]) := by
  simp [get_history, get_history_s, append_turn]

/-- Helper: the new user/assistant pair survives the cap of `append_turn`. -/
theorem append_turn_pair_suffix (st : ConversationStore) (id u a : String) :
    List.IsSuffix [("user", u), ("assistant", a)]
      (get_history (append_turn st id u a) id) := by
  rw [get_history_append_turn]
  split
  · next hlt =>
    split
    · exact ⟨get_history st id, rfl⟩
    · next hne =>
      have hk : (get_history st id ++ [("user", u), ("assistant", a)]).length - st.maxTurns * 2
          ≤ (get_history st id).length := by
        have : 2 ≤ st.maxTurns * 2 := by omega
        simp only [List.length_append, List.length_cons, List.length_nil]
        omega
      rw [List.drop_append_of_le_length hk]
      exact ⟨(get_history st id).drop _, rfl⟩
  · exact ⟨get_history st id, rfl⟩

/-- C7: if the recognition stage fails, the request fails with that error,
the generator and synthesis stages are never invoked, and the store — the set
of known conversation ids and every history — is exactly the prior store. -/
theorem c7_asr_failure_no_side_effects {E : Type} (st : ConversationStore)
    (cid : Option String) (fresh : String) (sp : Option String)
    (llmOracle : List Message → Except E String)
    (ttsOracle : String → Except E (List Nat))
    (asrRes : Except E String) (e : E)
    (hasr : asrRes = Except.error e) :
    (talk st cid fresh sp asrRes llmOracle ttsOracle).store = st
    ∧ (talk st cid fresh sp asrRes llmOracle ttsOracle).result = Except.error e
    ∧ Stage.llm ∉ (talk st cid fresh sp asrRes llmOracle ttsOracle).trace
    ∧ Stage.tts ∉ (talk st cid fresh sp asrRes llmOracle ttsOracle).trace := by
  subst hasr
  refine ⟨rfl, rfl, ?_, ?_⟩ <;> simp [talk]

/-- C7 witness: a concrete failing recognition leaves a concrete store
untouched. -/
theorem c7_asr_failure_no_side_effects_witness :
    (talk (E := Nat) (emptyStore 20) (some "c") "f" none (Except.error 7)
        (fun _ => Except.ok "x") (fun _ => Except.ok [])).store = emptyStore 20
    ∧ (talk (E := Nat) (emptyStore 20) (some "c") "f" none (Except.error 7)
        (fun _ => Except.ok "x") (fun _ => Except.ok [])).result = Except.error 7
    ∧ Stage.llm ∉ (talk (E := Nat) (emptyStore 20) (some "c") "f" none (Except.error 7)
        (fun _ => Except.ok "x") (fun _ => Except.ok [])).trace
    ∧ Stage.tts ∉ (talk (E := Nat) (emptyStore 20) (some "c") "f" none (Except.error 7)
        (fun _ => Except.ok "x") (fun _ => Except.ok [])).trace :=
  c7_asr_failure_no_side_effects (emptyStore 20) (some "c") "f" none
    (fun _ => Except.ok "x") (fun _ => Except.ok []) (Except.error 7) 7 rfl

/-- C3: when recognition and generation succeed but synthesis fails, `talk`
fails with the synthesis error, yet the (transcript, extracted-reply) pair —
appended strictly before synthesis — is still the tail of the conversation's
stored history. -/
theorem c3_turn_recorded_despite_tts_failure {E : Type} (st : ConversationStore)
    (cid : Option String) (fresh : String) (sp : Option String)
    (llmOracle : List Message → Except E String)
    (ttsOracle : String → Except E (List Nat))
    (asrRes : Except E String) (t content : String) (e : E)
    (hasr : asrRes = Except.ok t)
    (hllm : llmOracle (mk_messages sp
        (get_history (ensure_conversation_id st cid fresh).2
          (ensure_conversation_id st cid fresh).1) t) = Except.ok content)
    (htts : ttsOracle (generate_chat_result content) = Except.error e) :
    (talk st cid fresh sp asrRes llmOracle ttsOracle).result = Except.error e
    ∧ List.IsSuffix [("user", t), ("assistant", generate_chat_result content)]
        (get_history (talk st cid fresh sp asrRes llmOracle ttsOracle).store
          (ensure_conversation_id st cid fresh).1) := by
  subst hasr
  have hout : talk st cid fresh sp (Except.ok t) llmOracle ttsOracle
      = ⟨Except.error e,
         append_turn (ensure_conversation_id st cid fresh).2
           (ensure_conversation_id st cid fresh).1 t (generate_chat_result content),
         [Stage.asr, Stage.llm, Stage.tts]⟩ := by
    simp [talk, hllm, htts]
  rw [hout]
  exact ⟨rfl, append_turn_pair_suffix _ _ _ _⟩

/-- C3 witness: concrete run with failing synthesis still records the pair. -/
theorem c3_turn_recorded_despite_tts_failure_witness :
    (talk (E := Nat) (emptyStore 1) none "c1" none (Except.ok "hi")
        (fun _ => Except.ok "yo") (fun _ => Except.error 3)).result = Except.error 3
    ∧ List.IsSuffix [("user", "hi"), ("assistant", generate_chat_result "yo")]
        (get_history
          (talk (E := Nat) (emptyStore 1) none "c1" none (Except.ok "hi")
            (fun _ => Except.ok "yo") (fun _ => Except.error 3)).store
          (ensure_conversation_id (emptyStore 1) none "c1").1) :=
  c3_turn_recorded_despite_tts_failure (emptyStore 1) none "c1" none
    (fun _ => Except.ok "yo") (fun _ => Except.error 3) (Except.ok "hi") "hi" "yo" 3
    rfl rfl rfl

/-! ## Extraction pipeline theorems -/

/-- Helper: the fallback chain returns the empty string only for empty input
(`final or cleaned or raw_text` ends in the raw text). -/
theorem extract_fallback_empty (t : String) (h : extract_fallback t = "") : t = "" := by
  simp only [extract_fallback] at h
  by_cases hf : extract_final (strip_think_text t) = ""
  · rw [if_pos hf] at h
    by_cases hc : strip_think_text t = ""
    · rwa [if_pos hc] at h
    · rw [if_neg hc] at h
      exact absurd h hc
  · rw [if_neg hf] at h
    exact absurd h hf

/-- C8: the extraction pipeline is a total function of the raw text (it is a
Lean function, so no exception can escape), and it returns the empty string
exactly when the raw text is empty. -/
theorem c8_extraction_total_empty_iff (raw_text : String) :
    generate_chat_extract raw_text = "" ↔ raw_text = "" := by
  constructor
  · intro h
    cases hp : parse_json_candidate raw_text with
    | none =>
      simp only [generate_chat_extract, hp] at h
      exact extract_fallback_empty raw_text h
    | some s =>
      simp only [generate_chat_extract, hp] at h
      by_cases hs : s = ""
      · rw [if_pos hs] at h
        exact extract_fallback_empty raw_text h
      · rw [if_neg hs] at h
        exact absurd h hs
  · intro h
    subst h
    rfl

/-- C1 counterexample: for the raw text `<think>secret</think>` — a single
thinking-marker region — the JSON-candidate parse fails, think-stripping
leaves the empty string, and the last-resort raw fallback returns the
original text, so the pipeline output contains the region's content `secret`
verbatim, contradicting the claim. -/
theorem c1_think_content_counterexample :
    generate_chat_extract "<think>secret</think>" = "<think>secret</think>"
    ∧ contains_substring (generate_chat_extract "<think>secret</think>") "secret" = true :=
  ⟨rfl, rfl⟩

/-- C5 counterexample: the text `FINAL:` contains a line matching the FINAL
label whose remainder trims to the empty string; the claim then demands the
empty string, but `final or cleaned` discards the empty heuristic result and
the pipeline returns the cleaned text `FINAL:` instead. -/
theorem c5_final_label_counterexample :
    generate_chat_extract "FINAL:" = "FINAL:"
    ∧ generate_chat_extract "FINAL:" ≠ "" := by
  refine ⟨rfl, ?_⟩
  decide

/-- Helper: the first success along `l1 ++ k :: l2` when `l1` all fail. -/
theorem first_some_append {α β : Type} (f : α → Option β) (l1 l2 : List α)
    (k : α) (v : β) (h1 : ∀ x ∈ l1, f x = none) (hk : f k = some v) :
    first_some f (l1 ++ k :: l2) = some v := by
  induction l1 with
  | nil => simp [first_some, hk]
  | cons a as ih =>
    have ha : f a = none := h1 a (by simp)
    simp only [List.cons_append, first_some, ha]
    exact ih (fun x hx => h1 x (by simp [hx]))

/-- Helper: a qualifying string value is non-empty after stripping. -/
theorem val_yields_ne_empty (j : Json) (v : String) (h : val_yields j = some v) :
    v ≠ "" := by
  cases j with
  | str s =>
    simp only [val_yields] at h
    by_cases hs : pyStrip s = ""
    · rw [if_pos hs] at h
      cases h
    · rw [if_neg hs] at h
      injection h with h2
      rw [← h2]
      exact hs
  | null => simp [val_yields] at h
  | bool b => simp [val_yields] at h
  | num s => simp [val_yields] at h
  | arr l => simp [val_yields] at h
  | obj l => simp [val_yields] at h

/-- Helper: a preferred-key hit is non-empty after stripping. -/
theorem key_yields_ne_empty (kvs : List (String × Json)) (k v : String)
    (h : key_yields kvs k = some v) : v ≠ "" := by
  unfold key_yields at h
  cases hl : lookupKV kvs k with
  | none => rw [hl] at h; exact absurd h (by simp)
  | some j => rw [hl] at h; exact val_yields_ne_empty j v h

/-- C4: if the raw text parses as a JSON object, the preferred keys `final`,
`answer`, `output`, `response`, `result` are searched in that fixed order, and
the first whose value is a string that is non-empty after trimming determines
the output: the pipeline returns exactly that trimmed string, regardless of
any other keys and of their ordering.  (`preferred_keys = ks1 ++ k :: ks2`
positions `k` in the fixed order; for `k = "final"`, `ks1 = []` and the
hypothesis on earlier keys is vacuous.) -/
theorem c4_json_preferred_key_extraction (text v k : String)
    (kvs : List (String × Json)) (ks1 ks2 : List String)
    (hp : loads text = some (Json.obj kvs))
    (hsplit : preferred_keys = ks1 ++ k :: ks2)
    (h1 : ∀ x ∈ ks1, key_yields kvs x = none)
    (hk : key_yields kvs k = some v) :
    generate_chat_extract text = v := by
  have hvne : v ≠ "" := key_yields_ne_empty kvs k v hk
  have hfs : first_some (fun x => key_yields kvs x) preferred_keys = some v := by
    rw [hsplit]
    exact first_some_append (fun x => key_yields kvs x) ks1 ks2 k v h1 hk
  have hcand : parse_json_candidate text = some v := by
    simp only [parse_json_candidate, hp, hfs]
  simp only [generate_chat_extract, hcand]
  exact if_neg hvne

/-- C4 witness: a JSON object with key `final` mapping to `" X "` (plus an
extra key) extracts to `"X"`. -/
theorem c4_json_preferred_key_extraction_witness :
    generate_chat_extract "\x7b\"final\":\" X \",\"other\":\"Y\"\x7d" = "X" :=
  c4_json_preferred_key_extraction "\x7b\"final\":\" X \",\"other\":\"Y\"\x7d" "X" "final"
    [("final", Json.str " X "), ("other", Json.str "Y")]
    [] ["answer", "output", "response", "result"]
    rfl rfl (by simp) rfl

/-- A case-insensitive match is at least as long as its token. -/
theorem startsWithCI_length (tok cs : List Char) (h : startsWithCI tok cs = true) :
    tok.length ≤ cs.length := by
  induction tok generalizing cs with
  | nil => simp
  | cons t ts ih =>
    cases cs with
    | nil => simp [startsWithCI] at h
    | cons c cs' =>
      simp only [startsWithCI, Bool.and_eq_true] at h
      simp only [List.length_cons]
      exact Nat.succ_le_succ (ih cs' h.2)

/-- A match survives extending the scanned list on the right. -/
theorem startsWithCI_append_left (tok xs ys : List Char)
    (h : startsWithCI tok xs = true) : startsWithCI tok (xs ++ ys) = true := by
  induction tok generalizing xs with
  | nil => cases xs <;> rfl
  | cons t ts ih =>
    cases xs with
    | nil => simp [startsWithCI] at h
    | cons x xs' =>
      simp only [List.cons_append, startsWithCI, Bool.and_eq_true] at h ⊢
      exact ⟨h.1, ih xs' h.2⟩

/-- If no token character matches a newline, a match across `xs ++ '\n' :: ys`
must already lie inside `xs`. -/
theorem startsWithCI_append_nl :
    ∀ (tok : List Char), (∀ c ∈ tok, ciEq c '\n' = false) →
      ∀ xs ys, startsWithCI tok (xs ++ '\n' :: ys) = true →
        startsWithCI tok xs = true := by
  intro tok
  induction tok with
  | nil => intro _ xs ys _; cases xs <;> rfl
  | cons t ts ih =>
    intro htok xs ys h
    cases xs with
    | nil =>
      rw [List.nil_append] at h
      simp only [startsWithCI, Bool.and_eq_true] at h
      exact absurd h.1 (by simp [htok t (by simp)])
    | cons x xs' =>
      simp only [List.cons_append, startsWithCI, Bool.and_eq_true] at h ⊢
      exact ⟨h.1, ih (fun c hc => htok c (by simp [hc])) xs' ys h.2⟩

/-- A match at the head is an occurrence. -/
theorem containsTokCI_of_startsWith (tok s : List Char)
    (h : startsWithCI tok s = true) : containsTokCI tok s = true := by
  cases s with
  | nil => simpa [containsTokCI] using h
  | cons c rest => simp [containsTokCI, h]

/-- Occurrences are preserved by extending the list on the left. -/
theorem containsTokCI_suffix (tok s l : List Char) (hs : s <:+ l)
    (h : containsTokCI tok s = true) : containsTokCI tok l = true := by
  obtain ⟨u, rfl⟩ := hs
  induction u with
  | nil => simpa using h
  | cons a u' ih => simp [containsTokCI, ih]

/-- `dropWhile` is idempotent. -/
theorem dropWhile_dropWhile (p : Char → Bool) (l : List Char) :
    (l.dropWhile p).dropWhile p = l.dropWhile p := by
  induction l with
  | nil => rfl
  | cons c cs ih =>
    by_cases h : p c = true
    · simp [List.dropWhile_cons, h, ih]
    · simp [List.dropWhile_cons, h]

/-- Stripping after dropping leading whitespace strips the original. -/
theorem trimChars_dropWhile (l : List Char) :
    trimChars (l.dropWhile pyIsSpace) = trimChars l := by
  unfold trimChars
  rw [dropWhile_dropWhile]

/-- `takeWhile` keeps a list all of whose elements satisfy the predicate. -/
theorem takeWhile_all (p : Char → Bool) (l : List Char)
    (h : ∀ c ∈ l, p c = true) : l.takeWhile p = l := by
  induction l with
  | nil => rfl
  | cons c cs ih =>
    rw [List.takeWhile_cons, if_pos (h c (by simp))]
    rw [ih (fun d hd => h d (by simp [hd]))]

/-- The remainder returned by `line_final_rem` is a suffix of the line. -/
theorem line_final_rem_suffix (l rem : List Char)
    (h : line_final_rem l = some rem) : rem <:+ l := by
  simp only [line_final_rem] at h
  split at h
  · split at h
    · next c s3 hs2 =>
      split at h
      · injection h with h3
        have h1 : rem <:+ ((l.dropWhile pyIsSpace).drop 5).dropWhile pyIsSpace := by
          rw [hs2, ← h3]
          exact ⟨[c], rfl⟩
        exact h1.trans (((List.dropWhile_suffix _).trans
          (List.drop_suffix _ _)).trans (List.dropWhile_suffix _))
      · cases h
    · cases h
  · cases h

/-- Walking through a newline-free line (not at a line start) reaches the
next line start without attempting the pattern. -/
theorem find_final_aux_walk (l : List Char) (rest : List Char)
    (hnl : ∀ c ∈ l, (c == '\n') = false) :
    find_final_aux (l ++ '\n' :: rest) false = find_final_aux rest true := by
  induction l with
  | nil => simp [find_final_aux]
  | cons c l' ih =>
    have hc : (c == '\n') = false := hnl c (by simp)
    simp only [List.cons_append, find_final_aux, Bool.false_eq_true, if_false, hc]
    exact ih (fun d hd => hnl d (by simp [hd]))

/-- The pattern attempt ignores a leading all-whitespace prefix (the leading
greedy `\s*` absorbs it). -/
theorem try_final_at_ws_prefix (w rest : List Char)
    (hw : ∀ c ∈ w, pyIsSpace c = true) :
    try_final_at (w ++ rest) = try_final_at rest := by
  unfold try_final_at
  rw [List.dropWhile_append_of_pos (by simpa using hw)]

/-- The attempt fails on the empty remainder. -/
theorem try_final_at_nil : try_final_at ([] : List Char) = none := rfl

/-- Scanning from a line start over a line that contains no `FINAL` token and
no newline continues at the next line start with the same result. -/
theorem find_final_aux_skip (l rest : List Char)
    (hnl : ∀ c ∈ l, (c == '\n') = false)
    (hfin : containsTokCI finalTok l = false) :
    find_final_aux (l ++ '\n' :: rest) true = find_final_aux rest true := by
  by_cases hws : ∀ c ∈ l, pyIsSpace c = true
  · -- all-whitespace line: the attempt here coincides with the attempt at the
    -- next line start
    have htry : try_final_at (l ++ '\n' :: rest) = try_final_at rest := by
      have h2 : ∀ c ∈ l ++ ['\n'], pyIsSpace c = true := by
        intro c hc
        rcases List.mem_append.1 hc with h | h
        · exact hws c h
        · simp only [List.mem_singleton] at h
          subst h
          decide
      have hshape : l ++ '\n' :: rest = (l ++ ['\n']) ++ rest := by
        rw [List.append_assoc]
        rfl
      rw [hshape]
      exact try_final_at_ws_prefix (l ++ ['\n']) rest h2
    cases l with
    | nil =>
      rw [List.nil_append] at htry ⊢
      cases rest with
      | nil => decide
      | cons r rs =>
        cases htr : try_final_at (r :: rs) with
        | some g => simp [find_final_aux, htry, htr]
        | none => simp [find_final_aux, htry, htr]
    | cons c l' =>
      have hc : (c == '\n') = false := hnl c (by simp)
      simp only [List.cons_append] at htry
      cases htr : try_final_at rest with
      | some g =>
        cases rest with
        | nil => rw [try_final_at_nil] at htr; cases htr
        | cons r rs => simp [find_final_aux, htry, htr, hc]
      | none =>
        have hwalk := find_final_aux_walk l' rest (fun d hd => hnl d (by simp [hd]))
        simp [find_final_aux, htry, htr, hc, hwalk]
  · -- the line has a non-whitespace character but no FINAL token: the attempt
    -- fails
    have hne : l.dropWhile pyIsSpace ≠ [] := by
      intro hemp
      exact hws (by simpa using List.dropWhile_eq_nil_iff.1 hemp)
    have htry : try_final_at (l ++ '\n' :: rest) = none := by
      unfold try_final_at
      rw [List.dropWhile_append, if_neg (by simpa using hne)]
      have hsw : startsWithCI finalTok (l.dropWhile pyIsSpace ++ '\n' :: rest) = false := by
        by_contra h'
        rw [Bool.not_eq_false] at h'
        have h1 := startsWithCI_append_nl finalTok (by decide)
          (l.dropWhile pyIsSpace) rest h'
        have h2 := containsTokCI_of_startsWith _ _ h1
        have h3 := containsTokCI_suffix _ _ _ (List.dropWhile_suffix _) h2
        rw [hfin] at h3
        cases h3
      simp [try_final_core, hsw]
    cases l with
    | nil => exact absurd (by simp) hws
    | cons c l' =>
      have hc : (c == '\n') = false := hnl c (by simp)
      have hwalk := find_final_aux_walk l' rest (fun d hd => hnl d (by simp [hd]))
      simp only [List.cons_append] at htry
      simp [find_final_aux, htry, hc, hwalk]

/-- At the start of a line matching `\s*FINAL\s*:` whose remainder contains a
non-whitespace character, the attempt succeeds and captures the remainder of
that line (after the post-colon whitespace). -/
theorem try_final_at_lineK (lineK rem tail : List Char)
    (hline : line_final_rem lineK = some rem)
    (hnlRem : ∀ c ∈ rem, (c == '\n') = false)
    (hremne : rem.dropWhile pyIsSpace ≠ [])
    (htail : tail = [] ∨ ∃ ts, tail = '\n' :: ts) :
    try_final_at (lineK ++ tail) = some (rem.dropWhile pyIsSpace) := by
  simp only [line_final_rem] at hline
  split at hline
  · next hsw =>
    split at hline
    · next c s3 hs2 =>
      split at hline
      · next hc =>
        injection hline with h3
        subst h3
        subst hc
        have hs1ne : lineK.dropWhile pyIsSpace ≠ [] := by
          intro h0
          rw [h0] at hsw
          exact absurd hsw (by decide)
        unfold try_final_at
        rw [List.dropWhile_append, if_neg (by simpa using hs1ne)]
        unfold try_final_core
        rw [if_pos (startsWithCI_append_left _ _ _ hsw)]
        have h5 : 5 ≤ (lineK.dropWhile pyIsSpace).length := startsWithCI_length _ _ hsw
        rw [List.drop_append_of_le_length h5]
        rw [List.dropWhile_append, if_neg (by simp [hs2]), hs2]
        simp only [List.cons_append]
        rw [if_pos trivial]
        congr 1
        rw [List.dropWhile_append, if_neg (by simpa using hremne)]
        have hall : ∀ d ∈ s3.dropWhile pyIsSpace, (!(d == '\n')) = true := by
          intro d hd
          have hnn := hnlRem d (List.IsSuffix.mem hd (List.dropWhile_suffix _))
          simp [hnn]
        rcases htail with h | ⟨ts, h⟩
        · subst h
          rw [List.append_nil]
          exact takeWhile_all _ _ hall
        · subst h
          rw [List.takeWhile_append_of_pos (by simpa using hall)]
          simp
      · cases hline
    · cases hline
  · cases hline

/-- `joinLines` on a cons with a nonempty tail. -/
theorem joinLines_cons_ne (l : List Char) (ls : List (List Char)) (h : ls ≠ []) :
    joinLines (l :: ls) = l ++ '\n' :: joinLines ls := by
  cases ls with
  | nil => contradiction
  | cons a as => rfl

/-- `joinLines` of a list containing a nonempty line is nonempty. -/
theorem joinLines_ne_nil (pre : List (List Char)) (k : List Char)
    (post : List (List Char)) (hk : k ≠ []) :
    joinLines (pre ++ k :: post) ≠ [] := by
  cases pre with
  | nil =>
    cases post with
    | nil => simpa [joinLines] using hk
    | cons p ps =>
      rw [List.nil_append, joinLines_cons_ne k (p :: ps) (by simp)]
      simp
  | cons l pre' =>
    rw [List.cons_append, joinLines_cons_ne l (pre' ++ k :: post) (by simp)]
    simp

/-- The regex search over joined lines: earlier lines free of newlines and of
the `FINAL` token are skipped, and the first matching line determines the
captured group. -/
theorem find_final_joinLines (pre : List (List Char)) (lineK : List Char)
    (post : List (List Char)) (rem : List Char)
    (hpre : ∀ l ∈ pre, ((∀ c ∈ l, (c == '\n') = false)
        ∧ containsTokCI finalTok l = false))
    (hline : line_final_rem lineK = some rem)
    (hnlRem : ∀ c ∈ rem, (c == '\n') = false)
    (hremne : rem.dropWhile pyIsSpace ≠ []) :
    find_final (joinLines (pre ++ lineK :: post)) = some (rem.dropWhile pyIsSpace) := by
  have hKne : lineK ≠ [] := by
    intro h0
    rw [h0] at hline
    exact Option.noConfusion hline
  induction pre with
  | nil =>
    rw [List.nil_append]
    cases post with
    | nil =>
      have hj : joinLines [lineK] = lineK := rfl
      rw [hj]
      have htr := try_final_at_lineK lineK rem [] hline hnlRem hremne (Or.inl rfl)
      rw [List.append_nil] at htr
      cases hK : lineK with
      | nil => exact absurd hK hKne
      | cons c l' =>
        rw [hK] at htr
        unfold find_final
        simp [find_final_aux, htr]
    | cons p ps =>
      rw [joinLines_cons_ne lineK (p :: ps) (by simp)]
      have htr := try_final_at_lineK lineK rem ('\n' :: joinLines (p :: ps))
        hline hnlRem hremne (Or.inr ⟨_, rfl⟩)
      cases hK : lineK with
      | nil => exact absurd hK hKne
      | cons c l' =>
        rw [hK] at htr
        simp only [List.cons_append] at htr
        unfold find_final
        simp [find_final_aux, htr]
  | cons l pre' ih =>
    rw [List.cons_append, joinLines_cons_ne l (pre' ++ lineK :: post) (by simp)]
    unfold find_final at ih ⊢
    rw [find_final_aux_skip l _ (hpre l (by simp)).1 (hpre l (by simp)).2]
    exact ih (fun x hx => hpre x (by simp [hx]))

/-- C5 (amended): for text reaching the final-answer heuristics (the JSON
candidate parse yielded nothing) whose think-stripped form splits into lines
such that some line matches the optional-leading-whitespace, case-insensitive
`FINAL:` label with a remainder that is non-empty after trimming, and no
earlier line contains the token `FINAL` at all (lines are newline-free by
construction), extraction returns the remainder of that line trimmed.  (The
claim fails as stated when the remainder trims to empty — see the
counterexample — in which case the heuristic result is discarded and the
cleaned text is returned instead.) -/
theorem c5_final_label_extraction (t : String) (pre post : List (List Char))
    (lineK rem : List Char)
    (hp : parse_json_candidate t = none)
    (hdecomp : (strip_think_text t).data = joinLines (pre ++ lineK :: post))
    (hpre : ∀ l ∈ pre, ((∀ c ∈ l, (c == '\n') = false)
        ∧ containsTokCI finalTok l = false))
    (hline : line_final_rem lineK = some rem)
    (hnlK : ∀ c ∈ lineK, (c == '\n') = false)
    (hrem : pyStrip (String.mk rem) ≠ "") :
    generate_chat_extract t = pyStrip (String.mk rem) := by
  have hsuffix : rem <:+ lineK := line_final_rem_suffix lineK rem hline
  have hnlRem : ∀ c ∈ rem, (c == '\n') = false :=
    fun c hc => hnlK c (List.IsSuffix.mem hc hsuffix)
  have hremne : rem.dropWhile pyIsSpace ≠ [] := by
    intro h0
    apply hrem
    show String.mk (trimChars (String.mk rem).data) = ""
    have hdata : (String.mk rem).data = rem := rfl
    rw [hdata]
    unfold trimChars
    rw [h0]
    rfl
  have hKne : lineK ≠ [] := by
    intro h0
    rw [h0] at hline
    exact Option.noConfusion hline
  have hff := find_final_joinLines pre lineK post rem hpre hline hnlRem hremne
  have hef : extract_final (strip_think_text t) = pyStrip (String.mk rem) := by
    have hne : (joinLines (pre ++ lineK :: post)).isEmpty = false := by
      have h1 := joinLines_ne_nil pre lineK post hKne
      simpa [List.isEmpty_iff] using h1
    simp only [extract_final, hdecomp, hne, Bool.false_eq_true, if_false, hff]
    rw [trimChars_dropWhile]
    rfl
  simp only [generate_chat_extract, hp, extract_fallback]
  rw [hef, if_neg hrem]

/-- C5 witness: two meta-looking leading paragraphs, then `FINAL: yes sir`. -/
theorem c5_final_label_extraction_witness :
    generate_chat_extract "Great plan ahead\n\nFINAL: yes sir" = "yes sir" :=
  (c5_final_label_extraction "Great plan ahead\n\nFINAL: yes sir"
    ["Great plan ahead".data, []] [] "FINAL: yes sir".data " yes sir".data
    rfl rfl (by decide) rfl (by decide) (by decide)).trans rfl

/-- Case-insensitive matching is reflexive on a prefix. -/
theorem startsWithCI_self (tok ys : List Char) :
    startsWithCI tok (tok ++ ys) = true := by
  induction tok with
  | nil => rfl
  | cons t ts ih => simp [startsWithCI, ciEq, ih]

/-- Block stripping is the identity on text without an opening tag. -/
theorem strip_blocks_id (l : List Char) (h : containsTokCI tagOpenTok l = false) :
    ∀ fuel, strip_blocks_f fuel l = l := by
  induction l with
  | nil => intro fuel; cases fuel <;> rfl
  | cons ch rest ih =>
    intro fuel
    cases fuel with
    | zero => rfl
    | succ f =>
      simp only [containsTokCI, Bool.or_eq_false_iff] at h
      simp only [strip_blocks_f, h.1, Bool.false_eq_true, if_false]
      rw [ih h.2 f]

/-- Block stripping walks through a prefix free of opening-tag occurrences. -/
theorem strip_blocks_append (A : List Char) : ∀ (Z : List Char) (fuel : Nat),
    A.length + Z.length < fuel →
    noTokBeforeB tagOpenTok (A ++ Z) A.length = true →
    strip_blocks_f fuel (A ++ Z) = A ++ strip_blocks_f (fuel - A.length) Z := by
  induction A with
  | nil =>
    intro Z fuel hf hn
    simp
  | cons x A' ih =>
    intro Z fuel hf hn
    cases fuel with
    | zero => omega
    | succ f =>
      have hn' := hn
      rw [show (x :: A') ++ Z = x :: (A' ++ Z) from rfl] at hn'
      rw [show (x :: A').length = A'.length + 1 from rfl] at hn'
      rw [show noTokBeforeB tagOpenTok (x :: (A' ++ Z)) (A'.length + 1)
          = (!startsWithCI tagOpenTok (x :: (A' ++ Z))
             && noTokBeforeB tagOpenTok (A' ++ Z) A'.length) from rfl] at hn'
      rw [Bool.and_eq_true] at hn'
      obtain ⟨hn1, hn2⟩ := hn'
      rw [Bool.not_eq_true'] at hn1
      have hlen : A'.length + Z.length < f := by
        simp only [List.length_cons] at hf
        omega
      calc strip_blocks_f (f + 1) ((x :: A') ++ Z)
          = strip_blocks_f (f + 1) (x :: (A' ++ Z)) := by rw [List.cons_append]
        _ = x :: strip_blocks_f f (A' ++ Z) := by
            simp only [strip_blocks_f, hn1, Bool.false_eq_true, if_false]
        _ = x :: (A' ++ strip_blocks_f (f - A'.length) Z) := by
            rw [ih Z f hlen hn2]
        _ = (x :: A') ++ strip_blocks_f ((f + 1) - (x :: A').length) Z := by
            rw [show (f + 1) - (x :: A').length = f - A'.length from by
              simp [Nat.succ_sub_succ]]
            rfl

/-- `find_close` skips a prefix free of closing-tag occurrences and stops at
the first closing tag. -/
theorem find_close_skip (B : List Char) : ∀ (W : List Char),
    noTokBeforeB tagCloseTok (B ++ W) B.length = true →
    startsWithCI tagCloseTok W = true →
    find_close (B ++ W) = some (W.drop 8) := by
  induction B with
  | nil =>
    intro W hn hw
    cases W with
    | nil => simp [startsWithCI, tagCloseTok] at hw
    | cons w ws => simp [find_close, hw]
  | cons x B' ih =>
    intro W hn hw
    simp only [List.cons_append, noTokBeforeB, Bool.and_eq_true,
      Bool.not_eq_true'] at hn
    simp only [List.cons_append, find_close, hn.1, Bool.false_eq_true, if_false]
    exact ih W hn.2 hw

/-- Removing one well-delimited thinking region: when the opening tag occurs
first at the region, the closing tag occurs first at the region's end, and
the rest contains no opening tag, block stripping deletes exactly the region
and its content. -/
theorem strip_blocks_region (A B C : List Char)
    (hopen : noTokBeforeB tagOpenTok (A ++ (tagOpenTok ++ (B ++ (tagCloseTok ++ C))))
        A.length = true)
    (hclose : noTokBeforeB tagCloseTok (B ++ (tagCloseTok ++ C)) B.length = true)
    (hcfree : containsTokCI tagOpenTok C = false) :
    ∀ fuel, (A ++ (tagOpenTok ++ (B ++ (tagCloseTok ++ C)))).length < fuel →
    strip_blocks_f fuel (A ++ (tagOpenTok ++ (B ++ (tagCloseTok ++ C)))) = A ++ C := by
  intro fuel hf
  rw [strip_blocks_append A _ fuel (by simpa [List.length_append] using hf) hopen]
  have hfz : 1 ≤ fuel - A.length := by
    simp only [List.length_append, tagOpenTok, tagCloseTok] at hf
    simp only [List.length_cons, List.length_nil] at hf
    omega
  cases hfz2 : fuel - A.length with
  | zero => omega
  | succ g =>
    congr 1
    have hsw : startsWithCI tagOpenTok (tagOpenTok ++ (B ++ (tagCloseTok ++ C))) = true :=
      startsWithCI_self _ _
    have hdrop : (tagOpenTok ++ (B ++ (tagCloseTok ++ C))).drop 7 = B ++ (tagCloseTok ++ C) := rfl
    have hfc : find_close ((tagOpenTok ++ (B ++ (tagCloseTok ++ C))).drop 7) = some C := by
      rw [hdrop, find_close_skip B (tagCloseTok ++ C) hclose (startsWithCI_self _ _)]
      rfl
    have hshape : tagOpenTok ++ (B ++ (tagCloseTok ++ C))
        = '<' :: (['t', 'h', 'i', 'n', 'k', '>'] ++ (B ++ (tagCloseTok ++ C))) := rfl
    rw [hshape] at hsw hfc ⊢
    simp only [strip_blocks_f, hsw, if_true]
    rw [hfc]
    exact strip_blocks_id C hcfree g

/-- C1 (amended): for raw text consisting of a thinking region delimited by
`<think>`/`</think>` markers that occur only as the literal delimiters, when
the JSON-candidate parse yields nothing and the cleaned text outside the
region is non-blank, the extraction output is a function of the text outside
the region alone — the region's content cannot influence (or appear in) the
result.  (The claim fails as stated on the JSON path and on the last-resort
raw fallback — see the counterexample.) -/
theorem c1_think_region_independence (a b c : String)
    (hp : parse_json_candidate
        (String.mk (a.data ++ (tagOpenTok ++ (b.data ++ (tagCloseTok ++ c.data))))) = none)
    (hopen : noTokBeforeB tagOpenTok
        (a.data ++ (tagOpenTok ++ (b.data ++ (tagCloseTok ++ c.data)))) a.data.length = true)
    (hclose : noTokBeforeB tagCloseTok
        (b.data ++ (tagCloseTok ++ c.data)) b.data.length = true)
    (hcfree : containsTokCI tagOpenTok c.data = false)
    (hne : strip_tags_trim (String.mk (a.data ++ c.data)) ≠ "") :
    generate_chat_extract
        (String.mk (a.data ++ (tagOpenTok ++ (b.data ++ (tagCloseTok ++ c.data)))))
      = post_blocks_extract (String.mk (a.data ++ c.data)) := by
  have hblocks := strip_blocks_region a.data b.data c.data hopen hclose hcfree
    ((a.data ++ (tagOpenTok ++ (b.data ++ (tagCloseTok ++ c.data)))).length + 1)
    (Nat.lt_succ_self _)
  have hst : strip_think_text
      (String.mk (a.data ++ (tagOpenTok ++ (b.data ++ (tagCloseTok ++ c.data)))))
      = strip_tags_trim (String.mk (a.data ++ c.data)) := by
    simp only [strip_think_text, strip_tags_trim]
    rw [hblocks]
  simp only [generate_chat_extract, hp, extract_fallback, post_blocks_extract, hst]
  by_cases hf : extract_final (strip_tags_trim (String.mk (a.data ++ c.data))) = ""
  · rw [if_pos hf, if_pos hf, if_neg hne]
  · rw [if_neg hf, if_neg hf]

/-- C1 witness: `Answer<think>hidden reasoning</think> ok` extracts to the
same result as the region-free text `Answer ok`. -/
theorem c1_think_region_independence_witness :
    generate_chat_extract
        (String.mk ("Answer".data ++ (tagOpenTok ++ ("hidden reasoning".data
          ++ (tagCloseTok ++ " ok".data)))))
      = post_blocks_extract (String.mk ("Answer".data ++ " ok".data)) :=
  c1_think_region_independence "Answer" "hidden reasoning" " ok"
    rfl (by decide) (by decide) (by decide) (by decide)
